import Mathlib

/-!
# Verification of `OptimizedDatabaseV1` (src/src/scripts/data/data-hive-v1.ts)

Shallow embedding of the chunked key-value store built on Minecraft Bedrock
dynamic properties.  JavaScript strings are modelled as `List Char`; the
dynamic-property backend (`world.getDynamicProperty` / `world.setDynamicProperty`)
is modelled as a function `Str → Option Str` where `none` means the entry is
absent (JS `setDynamicProperty(key, null)` deletes, so writing `none` models
deletion).  `JSON.stringify` applied to caller values is external to the store:
operations take/return the serialized text directly, and `get`/`entries` return
the raw text that the source passes to `JSON.parse` (`none` when the source
returns `undefined`).
-/

namespace ReplayCraft

/-- A JavaScript string, modelled as its list of characters. -/
abbrev Str := List Char

/-- Conversion from a Lean string literal to the JS-string model. -/
def str (s : String) : Str := s.data

/-- `Nat.digitChar`-based decimal rendering: JS `Number.prototype.toString()`
(and template interpolation `${i}`) for a nonnegative integer.  Structurally
recursive on a fuel argument (any fuel exceeding the input suffices) so that
it evaluates by kernel reduction. -/
def natToStrGo : Nat → Nat → Str → Str
  | 0, _, acc => acc
  | fuel + 1, n, acc =>
    if n < 10 then Nat.digitChar n :: acc
    else natToStrGo fuel (n / 10) (Nat.digitChar (n % 10) :: acc)

/-- Decimal string representation of a natural number (JS `toString`). -/
def natToStr (n : Nat) : Str := natToStrGo (n + 1) n []

/-- JS `parseInt(s, 10)` restricted to all-digit strings (the only way the
source calls it, guarded by `/^\d+$/.test`). -/
def parseDigits (s : Str) : Nat :=
  s.foldl (fun a c => 10 * a + (c.toNat - 48)) 0

/-- The regular expression test `/^\d+$/.test(s)` from the source: `s` is
nonempty and consists only of decimal digits. -/
def isDigits (s : Str) : Bool :=
  decide (s ≠ []) && s.all (·.isDigit)

/-- JS `String.prototype.split(sep)` for a one-character separator. -/
def splitChar (c : Char) : Str → List Str
  | [] => [[]]
  | a :: rest =>
    match splitChar c rest with
    | [] => [[]]
    | h :: t => if a = c then [] :: h :: t else (a :: h) :: t

/-- `ptr.split("/").pop()` from `entries`: the suffix after the final `/`. -/
def lastPart (p : Str) : Str := (splitChar '/' p).getLastD []

/-- JSON string escaping of one character as performed by `JSON.stringify`
(modelled host builtin; the escapes relevant to round-tripping keys are the
quote and the backslash, other characters pass through verbatim). -/
def escChar (c : Char) : Str :=
  if c = '"' ∨ c = '\\' then ['\\', c] else [c]

/-- A JSON string literal for `x`, as emitted by `JSON.stringify`. -/
def encodeStr (x : Str) : Str :=
  '"' :: x.flatMap escChar ++ ['"']

/-- `JSON.stringify(pointers)` for a string array (modelled host builtin):
`[` , comma-separated JSON string literals, `]`. -/
def encodePointers (l : List Str) : Str :=
  '[' :: (List.intercalate [','] (l.map encodeStr)) ++ [']']

/-- Parser for the body of a JSON string literal (after the opening quote);
returns the decoded content and the remainder after the closing quote.
Fuel-indexed to make termination evident. -/
def parseStrBody : Nat → Str → Option (Str × Str)
  | 0, _ => none
  | _ + 1, [] => none
  | f + 1, c :: rest =>
    if c = '"' then some ([], rest)
    else if c = '\\' then
      match rest with
      | [] => none
      | d :: rest2 =>
        match parseStrBody f rest2 with
        | some (x, r) => some (d :: x, r)
        | none => none
    else
      match parseStrBody f rest with
      | some (x, r) => some (c :: x, r)
      | none => none

/-- Parser for a nonempty comma-separated sequence of JSON string literals
followed by the closing `]` (the tail of a serialized pointer array). -/
def parseElems : Nat → Str → Option (List Str)
  | 0, _ => none
  | f + 1, '"' :: rest =>
    match parseStrBody rest.length rest with
    | some (x, ',' :: r2) =>
      match parseElems f r2 with
      | some xs => some (x :: xs)
      | none => none
    | some (x, [']']) => some [x]
    | _ => none
  | _ + 1, _ => none

/-- `JSON.parse` applied to a serialized pointer array (modelled host builtin):
succeeds exactly on the texts of the shape `encodePointers` emits. -/
def decodePointers (s : Str) : Option (List Str) :=
  match s with
  | '[' :: rest => if rest = [']'] then some [] else parseElems rest.length rest
  | _ => none

/-- `Math.ceil(a / b)` for natural `a` and positive natural `b`. -/
def ceilDiv (a b : Nat) : Nat := (a + b - 1) / b

/-- The chunk size constant `maxChunkSize` from `set` (line 69). -/
def maxChunkSize : Nat := 30000

/-- The state relevant to one `OptimizedDatabaseV1` instance: the dynamic
property backend plus the instance's in-memory `cachedPointers` field. -/
structure DB where
  backend : Str → Option Str
  cached : Option (List Str)

/-- `world.setDynamicProperty(k, v)`; `v = none` models passing `null`,
which deletes the entry. -/
def bwrite (db : DB) (k : Str) (v : Option Str) : DB :=
  { db with backend := fun q => if q = k then v else db.backend q }

/-- `this.pointerKey` : `` `${name}/pointers` `` (line 28). -/
def ptrKey (name : Str) : Str := name ++ '/' :: str "pointers"

/-- The derived dynamic key `` `${this.name}/${key}` `` used by
`set`/`get`/`delete`. -/
def entryKey (name key : Str) : Str := name ++ '/' :: key

/-- The chunk-part key `` `${dynamicKey}_part${i}` ``. -/
def partKey (dk : Str) (i : Nat) : Str := dk ++ str "_part" ++ natToStr i

/-- `_getPointers` (lines 40-47): return the cached list if present, else read
and parse the pointer entry (falsy entry, i.e. absent or empty, gives `[]`),
caching the result.  `JSON.parse` failure on a non-pointer-shaped entry is
modelled as `[]` following spec §4.1 ("absent/unparseable treated as empty
list"); no theorem below reaches that case. -/
def loadPointers (name : Str) (db : DB) : List Str × DB :=
  match db.cached with
  | some l => (l, db)
  | none =>
    let l :=
      match db.backend (ptrKey name) with
      | none => []
      | some p => if p = [] then [] else (decodePointers p).getD []
    (l, { db with cached := some l })

/-- `_setPointers` (lines 53-56): cache the list and persist its serialization
under the pointer key. -/
def setPointers (name : Str) (l : List Str) (db : DB) : DB :=
  { (bwrite db (ptrKey name) (some (encodePointers l))) with cached := some l }

/-- The chunk `serialized.substring(i * maxChunkSize, (i + 1) * maxChunkSize)`
(line 85). -/
def chunkOf (serialized : Str) (i : Nat) : Str :=
  (serialized.drop (i * maxChunkSize)).take maxChunkSize

/-- The sequence of backend writes performed by the chunking phase of `set`
(lines 81-91), in order: either the numbered chunk parts followed by the
chunk-count marker, or the single direct write. -/
def chunkWrites (dk serialized : Str) : List (Str × Str) :=
  let chunkCount := ceilDiv serialized.length maxChunkSize
  if 1 < chunkCount then
    ((List.range chunkCount).map (fun i => (partKey dk i, chunkOf serialized i)))
      ++ [(dk, natToStr chunkCount)]
  else
    [(dk, serialized)]

/-- Apply a list of backend writes in order. -/
def applyWrites (db : DB) (ws : List (Str × Str)) : DB :=
  ws.foldl (fun d w => bwrite d w.1 (some w.2)) db

/-- `get` (lines 110-127), returning the raw text the source hands to
`JSON.parse` (`none` models returning `undefined`): a falsy entry (absent or
empty) is not found; an all-digits entry is a chunk count whose parts are
concatenated (missing or empty parts contribute nothing, `if (part)`); any
other entry is the direct value. -/
def get (name key : Str) (db : DB) : Option Str :=
  match db.backend (entryKey name key) with
  | none => none
  | some meta =>
    if meta = [] then none
    else if isDigits meta then
      some ((List.range (parseDigits meta)).foldl
        (fun acc i =>
          match db.backend (partKey (entryKey name key) i) with
          | some part => if part = [] then acc else acc ++ part
          | none => acc) [])
    else some meta

/-- The part-deletion loop shared by `delete` (lines 143-148) and `clear`
(lines 164-169): when the entry at `dynamicKey` is an all-digits chunk-count
marker, delete its numbered chunk parts. -/
def eraseParts (db : DB) (dynamicKey : Str) : DB :=
  if isDigits (((db.backend dynamicKey)).getD []) then
    (List.range (parseDigits (((db.backend dynamicKey)).getD []))).foldl
      (fun d i => bwrite d (partKey dynamicKey i) none) db
  else db

/-- `delete` (lines 137-152): if the dynamic key is in the pointer list,
delete its chunk parts when the entry is an all-digits chunk-count marker,
delete the base entry, and persist the pointer list with all occurrences of
the dynamic key removed. -/
def delete (name key : Str) (db : DB) : DB :=
  let load := loadPointers name db
  let pointers := load.1
  let db := load.2
  let dynamicKey := entryKey name key
  if dynamicKey ∈ pointers then
    setPointers name (pointers.filter (fun p => p ≠ dynamicKey))
      (bwrite (eraseParts db dynamicKey) dynamicKey none)
  else db

/-- `set` (lines 67-98).  `serialized` is `JSON.stringify(value)` (host
builtin applied by the caller of this model).  Note the source captures the
`pointers` array before calling `delete`, and `delete` replaces the cached
array with a fresh filtered one, so the final `!pointers.includes(dynamicKey)`
test at line 93 still sees the pre-delete list. -/
def set (name key serialized : Str) (db : DB) : Bool × DB :=
  let load := loadPointers name db
  let pointers := load.1
  let db := load.2
  let dynamicKey := entryKey name key
  let existed := dynamicKey ∈ pointers
  let db := if existed then delete name key db else db
  let db := applyWrites db (chunkWrites dynamicKey serialized)
  let db :=
    if dynamicKey ∈ pointers then db
    else setPointers name (pointers ++ [dynamicKey]) db
  (existed, db)

/-- One iteration of the `forEach` loop in `clear` (lines 162-171): the entry
is re-read from the backend at processing time. -/
def clearStep (db : DB) (dynamicKey : Str) : DB :=
  bwrite (eraseParts db dynamicKey) dynamicKey none

/-- `clear` (lines 160-173): erase every pointed-to entry (and its chunk parts
when the entry read during the iteration is a chunk-count marker), then
persist an empty pointer list. -/
def clear (name : Str) (db : DB) : DB :=
  let load := loadPointers name db
  let pointers := load.1
  let db := load.2
  setPointers name [] (pointers.foldl clearStep db)

/-- `entries` (lines 183-189): for each pointer, the key is the suffix after
the final `/`, paired with the raw `get` result for that key. -/
def entries (name : Str) (db : DB) : List (Str × Option Str) × DB :=
  let load := loadPointers name db
  let pointers := load.1
  let db := load.2
  (pointers.map (fun ptr => (lastPart ptr, get name (lastPart ptr) db)), db)

/-- The two failure conditions of the constructor (lines 20-26). -/
inductive ConstructError where
  | emptyName : ConstructError
  | invalidChar : ConstructError
deriving DecidableEq

/-- The constructor (lines 20-34), acting on an initial backend: reject an
empty name (`!name || name.length === 0`) or a name containing `"` or `/`;
otherwise initialize the pointer entry to a serialized empty array when the
existing entry is falsy (absent or empty string). -/
def construct (name : Str) (backend : Str → Option Str) : Except ConstructError DB :=
  if name = [] then .error .emptyName
  else if name.contains '"' || name.contains '/' then .error .invalidChar
  else
    let init :=
      match backend (ptrKey name) with
      | none => true
      | some p => p = []
    let backend :=
      if init then fun q => if q = ptrKey name then some (encodePointers []) else backend q
      else backend
    .ok { backend := backend, cached := none }

/-- `m` repeated `set` calls with the same key and value on one instance. -/
def setN (name key serialized : Str) : Nat → DB → DB
  | 0, db => db
  | m + 1, db => setN name key serialized m (set name key serialized db).2

/-- The chunk count apparently recorded at `dk`: the parsed value when the
entry is an all-digits marker, `0` otherwise (matching the part-deletion
loops of `delete` and `clear`). -/
def nApparent (db : DB) (dk : Str) : Nat :=
  match db.backend dk with
  | some m => if isDigits m then parseDigits m else 0
  | none => 0

/-- The state of a freshly constructed database named `db` over an otherwise
empty backend: the pointer entry holds a serialized empty array and the
instance cache is unset (exactly what `construct (str "db") (fun _ => none)`
produces). -/
def dbInit : DB :=
  { backend := fun k => if k = ptrKey (str "db") then some (encodePointers []) else none,
    cached := none }

/-- The pointer-list invariant of spec §3: the instance cache holds a
duplicate-free list whose serialization is persisted under the index key. -/
def PtrGood (name : Str) (db : DB) : Prop :=
  ∃ l, db.cached = some l ∧ l.Nodup ∧ db.backend (ptrKey name) = some (encodePointers l)

/-- Entry `p` has no chunk parts beyond its apparent chunk count (the shape
every entry has after being written by `set`). -/
def WellFormedAt (db : DB) (p : Str) : Prop :=
  ∀ i, nApparent db p ≤ i → db.backend (partKey p i) = none

/-- A small concrete state for witnesses: database `db` holds the chunked
entry `db/x` with marker `2` and two parts. -/
def chunkedDb : DB :=
  { backend := fun k =>
      if k = ptrKey (str "db") then some (encodePointers [entryKey (str "db") (str "x")])
      else if k = entryKey (str "db") (str "x") then some (natToStr 2)
      else if k = partKey (entryKey (str "db") (str "x")) 0 then some (str "ab")
      else if k = partKey (entryKey (str "db") (str "x")) 1 then some (str "c")
      else none,
    cached := some [entryKey (str "db") (str "x")] }

/-- A small concrete state for witnesses: database `db` holds the direct
entry `db/a` and the chunked entry `db/b` with marker `2` and two parts. -/
def mixedDb : DB :=
  { backend := fun k =>
      if k = ptrKey (str "db") then
        some (encodePointers [entryKey (str "db") (str "a"), entryKey (str "db") (str "b")])
      else if k = entryKey (str "db") (str "a") then some (str "t")
      else if k = entryKey (str "db") (str "b") then some (natToStr 2)
      else if k = partKey (entryKey (str "db") (str "b")) 0 then some (str "uv")
      else if k = partKey (entryKey (str "db") (str "b")) 1 then some (str "w")
      else none,
    cached := some [entryKey (str "db") (str "a"), entryKey (str "db") (str "b")] }

/-! ## Decimal rendering and parsing -/

theorem natToStrGo_append : ∀ (fuel n : Nat) (acc : Str), n < fuel →
    natToStrGo fuel n acc = natToStrGo fuel n [] ++ acc := by
  intro fuel
  induction fuel with
  | zero =>
    intro n acc h
    omega
  | succ fuel ih =>
    intro n acc _
    by_cases h : n < 10
    · unfold natToStrGo
      simp [h]
    · have hd : n / 10 < fuel := by
        have := Nat.div_lt_self (show 0 < n by omega) (show 1 < 10 by omega)
        omega
      unfold natToStrGo
      simp only [h, if_neg, if_false, ite_false]
      rw [ih _ _ hd, ih _ [Nat.digitChar (n % 10)] hd]
      simp

theorem digitChar_isDigit {d : Nat} (h : d < 10) : (Nat.digitChar d).isDigit = true := by
  interval_cases d <;> decide

theorem digitChar_toNat {d : Nat} (h : d < 10) : (Nat.digitChar d).toNat - 48 = d := by
  interval_cases d <;> decide

theorem natToStrGo_ne_nil : ∀ (fuel n : Nat), n < fuel → natToStrGo fuel n [] ≠ [] := by
  intro fuel
  induction fuel with
  | zero =>
    intro n h
    omega
  | succ fuel ih =>
    intro n _
    by_cases h : n < 10
    · unfold natToStrGo
      simp [h]
    · have hd : n / 10 < fuel := by
        have := Nat.div_lt_self (show 0 < n by omega) (show 1 < 10 by omega)
        omega
      unfold natToStrGo
      simp only [h, if_neg, if_false, ite_false]
      rw [natToStrGo_append _ _ _ hd]
      simp

theorem natToStr_ne_nil (n : Nat) : natToStr n ≠ [] :=
  natToStrGo_ne_nil (n + 1) n (by omega)

theorem natToStrGo_all_digits : ∀ (fuel n : Nat), n < fuel →
    (natToStrGo fuel n []).all (·.isDigit) = true := by
  intro fuel
  induction fuel with
  | zero =>
    intro n h
    omega
  | succ fuel ih =>
    intro n _
    by_cases h : n < 10
    · unfold natToStrGo
      simp [h, digitChar_isDigit]
    · have hd : n / 10 < fuel := by
        have := Nat.div_lt_self (show 0 < n by omega) (show 1 < 10 by omega)
        omega
      unfold natToStrGo
      simp only [h, if_neg, if_false, ite_false]
      rw [natToStrGo_append _ _ _ hd, List.all_append]
      have h10 : n % 10 < 10 := Nat.mod_lt _ (by omega)
      simp [ih _ hd, digitChar_isDigit h10]

theorem natToStr_all_digits (n : Nat) : (natToStr n).all (·.isDigit) = true :=
  natToStrGo_all_digits (n + 1) n (by omega)

theorem isDigits_natToStr (n : Nat) : isDigits (natToStr n) = true := by
  simp [isDigits, natToStr_ne_nil, natToStr_all_digits n]

theorem parseDigits_append (s t : Str) :
    parseDigits (s ++ t) = (t.foldl (fun a c => 10 * a + (c.toNat - 48)) (parseDigits s)) := by
  simp [parseDigits, List.foldl_append]

theorem parseDigits_natToStrGo : ∀ (fuel n : Nat), n < fuel →
    parseDigits (natToStrGo fuel n []) = n := by
  intro fuel
  induction fuel with
  | zero =>
    intro n h
    omega
  | succ fuel ih =>
    intro n _
    by_cases h : n < 10
    · unfold natToStrGo
      simp [h, parseDigits, digitChar_toNat h]
    · have hd : n / 10 < fuel := by
        have := Nat.div_lt_self (show 0 < n by omega) (show 1 < 10 by omega)
        omega
      unfold natToStrGo
      simp only [h, if_neg, if_false, ite_false]
      rw [natToStrGo_append _ _ _ hd]
      have h10 : n % 10 < 10 := Nat.mod_lt _ (by omega)
      rw [parseDigits_append (natToStrGo fuel (n / 10) []) [Nat.digitChar (n % 10)], ih _ hd]
      simp only [List.foldl_cons, List.foldl_nil, digitChar_toNat h10]
      omega

theorem parseDigits_natToStr (n : Nat) : parseDigits (natToStr n) = n :=
  parseDigits_natToStrGo (n + 1) n (by omega)

theorem natToStr_injective : Function.Injective natToStr := by
  intro a b h
  have := parseDigits_natToStr a
  rw [h, parseDigits_natToStr] at this
  omega

/-! ## Key disjointness -/

theorem partKey_ne_base (dk : Str) (i : Nat) : partKey dk i ≠ dk := by
  intro h
  have := congrArg List.length h
  simp [partKey, str] at this

theorem partKey_inj {dk : Str} {i j : Nat} (h : partKey dk i = partKey dk j) : i = j := by
  unfold partKey at h
  rw [List.append_assoc, List.append_assoc] at h
  have h2 := List.append_cancel_left h
  have h3 := List.append_cancel_left h2
  exact natToStr_injective h3

theorem getLast?_natToStr_isDigit (n : Nat) :
    ∀ c, (natToStr n).getLast? = some c → c.isDigit = true := by
  intro c hc
  have hc2 : c ∈ (natToStr n).getLast? := hc ▸ rfl
  obtain ⟨hne, hg⟩ := List.mem_getLast?_eq_getLast hc2
  have hmem : c ∈ natToStr n := hg ▸ List.getLast_mem hne
  have := natToStr_all_digits n
  rw [List.all_eq_true] at this
  exact this c hmem

theorem partKey_ne_ptrKey (dk name : Str) (i : Nat) : partKey dk i ≠ ptrKey name := by
  intro h
  have h1 : (partKey dk i).getLast? = (natToStr i).getLast? := by
    unfold partKey
    exact List.getLast?_append_of_ne_nil _ (natToStr_ne_nil i)
  have h2 : (ptrKey name).getLast? = some 's' := by
    unfold ptrKey
    rw [List.getLast?_append_of_ne_nil _ (by simp [str])]
    decide
  rw [h, h2] at h1
  have := getLast?_natToStr_isDigit i 's' h1.symm
  simp at this

theorem entryKey_eq_ptrKey_iff (name key : Str) :
    entryKey name key = ptrKey name ↔ key = str "pointers" := by
  unfold entryKey ptrKey
  constructor
  · intro h
    have := List.append_cancel_left h
    exact (List.cons_eq_cons.mp this).2
  · intro h
    rw [h]

/-! ## Pointwise state evolution -/

@[simp]
theorem bwrite_backend (db : DB) (k : Str) (v : Option Str) (q : Str) :
    (bwrite db k v).backend q = if q = k then v else db.backend q := rfl

@[simp]
theorem bwrite_cached (db : DB) (k : Str) (v : Option Str) :
    (bwrite db k v).cached = db.cached := rfl

@[simp]
theorem setPointers_backend (name : Str) (l : List Str) (db : DB) (q : Str) :
    (setPointers name l db).backend q =
      if q = ptrKey name then some (encodePointers l) else db.backend q := rfl

@[simp]
theorem setPointers_cached (name : Str) (l : List Str) (db : DB) :
    (setPointers name l db).cached = some l := rfl

theorem loadPointers_of_cached {db : DB} {l : List Str} (name : Str) (h : db.cached = some l) :
    loadPointers name db = (l, db) := by
  unfold loadPointers
  rw [h]

@[simp]
theorem applyWrites_nil (db : DB) : applyWrites db [] = db := rfl

@[simp]
theorem applyWrites_cons (db : DB) (w : Str × Str) (ws : List (Str × Str)) :
    applyWrites db (w :: ws) = applyWrites (bwrite db w.1 (some w.2)) ws := rfl

theorem applyWrites_append (db : DB) (ws₁ ws₂ : List (Str × Str)) :
    applyWrites db (ws₁ ++ ws₂) = applyWrites (applyWrites db ws₁) ws₂ := by
  unfold applyWrites
  rw [List.foldl_append]

@[simp]
theorem applyWrites_cached (db : DB) (ws : List (Str × Str)) :
    (applyWrites db ws).cached = db.cached := by
  induction ws generalizing db with
  | nil => rfl
  | cons w ws ih => simp [ih]

theorem applyWrites_backend_of_not_mem (db : DB) (ws : List (Str × Str)) (q : Str)
    (h : ∀ w ∈ ws, w.1 ≠ q) :
    (applyWrites db ws).backend q = db.backend q := by
  induction ws generalizing db with
  | nil => rfl
  | cons w ws ih =>
    rw [applyWrites_cons, ih _ (fun w' hw' => h w' (List.mem_cons_of_mem _ hw'))]
    rw [bwrite_backend, if_neg (fun hq => h w (List.mem_cons_self _ _) hq.symm)]

theorem applyWrites_map_backend_at (db : DB) (l : List Nat) (key : Nat → Str) (val : Nat → Str)
    (i : Nat) (hi : i ∈ l) (hinj : ∀ j ∈ l, key j = key i → j = i) :
    (applyWrites db (l.map (fun j => (key j, val j)))).backend (key i) = some (val i) := by
  induction l generalizing db with
  | nil => cases hi
  | cons a l ih =>
    rw [List.map_cons, applyWrites_cons]
    by_cases hmem : i ∈ l
    · exact ih _ hmem (fun j hj => hinj j (List.mem_cons_of_mem _ hj))
    · have ha : i = a := by
        rcases List.mem_cons.mp hi with h | h
        · exact h
        · exact absurd h hmem
      subst ha
      rw [applyWrites_backend_of_not_mem]
      · simp
      · intro w hw
        rcases List.mem_map.mp hw with ⟨j, hj, rfl⟩
        intro hkey
        exact hmem (hinj j (List.mem_cons_of_mem _ hj) hkey ▸ hj)

/-! ## Chunking -/

theorem chunkOf_length_le (s : Str) (i : Nat) : (chunkOf s i).length ≤ maxChunkSize := by
  simp [chunkOf]

theorem chunkOf_ne_nil {s : Str} {i : Nat} (h : i < ceilDiv s.length maxChunkSize) :
    chunkOf s i ≠ [] := by
  unfold ceilDiv maxChunkSize at h
  unfold chunkOf maxChunkSize
  intro hc
  have := congrArg List.length hc
  simp at this
  omega

theorem flatten_chunks : ∀ (n : Nat) (t : Str), n = ceilDiv t.length maxChunkSize →
    ((List.range n).map (chunkOf t)).flatten = t := by
  intro n
  induction n with
  | zero =>
    intro t h
    have : t.length = 0 := by
      unfold ceilDiv maxChunkSize at h
      omega
    simp [List.length_eq_zero.mp this]
  | succ n ih =>
    intro t h
    rw [List.range_succ_eq_map, List.map_cons, List.flatten_cons, List.map_map]
    have hc0 : chunkOf t 0 = t.take maxChunkSize := by simp [chunkOf]
    have hmap : (List.range n).map (chunkOf t ∘ Nat.succ) =
        (List.range n).map (chunkOf (t.drop maxChunkSize)) := by
      apply List.map_congr_left
      intro i _
      show chunkOf t (i + 1) = chunkOf (t.drop maxChunkSize) i
      unfold chunkOf
      rw [List.drop_drop]
      congr 2
      ring
    rw [hc0, hmap, ih (t.drop maxChunkSize) (by
      rw [List.length_drop]
      unfold ceilDiv maxChunkSize at h ⊢
      omega)]
    exact List.take_append_drop _ t

theorem chunkWrites_of_le {dk serialized : Str}
    (h : serialized.length ≤ maxChunkSize) :
    chunkWrites dk serialized = [(dk, serialized)] := by
  unfold chunkWrites
  have : ¬ 1 < ceilDiv serialized.length maxChunkSize := by
    unfold ceilDiv maxChunkSize at *
    omega
  simp [this]

theorem chunkWrites_of_gt {dk serialized : Str}
    (h : maxChunkSize < serialized.length) :
    chunkWrites dk serialized =
      ((List.range (ceilDiv serialized.length maxChunkSize)).map
        (fun i => (partKey dk i, chunkOf serialized i)))
      ++ [(dk, natToStr (ceilDiv serialized.length maxChunkSize))] := by
  unfold chunkWrites
  have : 1 < ceilDiv serialized.length maxChunkSize := by
    unfold ceilDiv maxChunkSize at *
    omega
  simp [this]

theorem chunkWrites_backend_base {dk serialized : Str} (db : DB)
    (h : maxChunkSize < serialized.length) :
    (applyWrites db (chunkWrites dk serialized)).backend dk =
      some (natToStr (ceilDiv serialized.length maxChunkSize)) := by
  rw [chunkWrites_of_gt h, applyWrites_append]
  simp

theorem chunkWrites_backend_part {dk serialized : Str} (db : DB)
    (h : maxChunkSize < serialized.length) {i : Nat}
    (hi : i < ceilDiv serialized.length maxChunkSize) :
    (applyWrites db (chunkWrites dk serialized)).backend (partKey dk i) =
      some (chunkOf serialized i) := by
  rw [chunkWrites_of_gt h, applyWrites_append]
  rw [applyWrites_cons, applyWrites_nil]
  rw [bwrite_backend]
  rw [if_neg (partKey_ne_base dk i)]
  exact applyWrites_map_backend_at _ _ _ _ i (List.mem_range.mpr hi)
    (fun j _ hkey => partKey_inj hkey)

theorem chunkWrites_backend_other {dk serialized : Str} (db : DB) (q : Str)
    (hq : q ≠ dk) (hparts : ∀ i < ceilDiv serialized.length maxChunkSize, q ≠ partKey dk i) :
    (applyWrites db (chunkWrites dk serialized)).backend q = db.backend q := by
  apply applyWrites_backend_of_not_mem
  intro w hw
  unfold chunkWrites at hw
  by_cases hc : 1 < ceilDiv serialized.length maxChunkSize
  · simp only [hc, if_pos] at hw
    rcases List.mem_append.mp hw with h1 | h1
    · rcases List.mem_map.mp h1 with ⟨j, hj, rfl⟩
      exact fun hk => hparts j (List.mem_range.mp hj) hk.symm
    · simp at h1
      subst h1
      exact fun hk => hq hk.symm
  · simp only [hc, if_neg, not_false_iff] at hw
    simp at hw
    subst hw
    exact fun hk => hq hk.symm

/-! ## Reading chunked values -/

theorem get_fold_concat (db : DB) (l : List Nat) (g : Nat → Str)
    (hf : ∀ i ∈ l, db.backend (partKey dk i) = some (g i)) :
    ∀ acc : Str, (l.foldl (fun acc i =>
        match db.backend (partKey dk i) with
        | some part => if part = [] then acc else acc ++ part
        | none => acc) acc) = acc ++ (l.map g).flatten := by
  induction l with
  | nil => intro acc; simp
  | cons a l ih =>
    intro acc
    rw [List.foldl_cons, hf a (List.mem_cons_self _ _)]
    simp only [List.map_cons, List.flatten_cons]
    by_cases hg : g a = []
    · rw [if_pos hg, ih (fun i hi => hf i (List.mem_cons_of_mem _ hi)), hg]
      simp
    · rw [if_neg hg, ih (fun i hi => hf i (List.mem_cons_of_mem _ hi))]
      simp

/-! ## Operation-level equations -/

theorem loadPointers_cached_post {name : Str} {db db₁ : DB} {ptrs : List Str}
    (h : loadPointers name db = (ptrs, db₁)) : db₁.cached = some ptrs := by
  unfold loadPointers at h
  cases hc : db.cached with
  | some l =>
    rw [hc] at h
    cases h
    exact hc
  | none =>
    rw [hc] at h
    cases h
    rfl

theorem loadPointers_backend_post {name : Str} {db db₁ : DB} {ptrs : List Str}
    (h : loadPointers name db = (ptrs, db₁)) : db₁.backend = db.backend := by
  unfold loadPointers at h
  cases hc : db.cached with
  | some l =>
    rw [hc] at h
    cases h
    rfl
  | none =>
    rw [hc] at h
    cases h
    rfl

theorem set_eq_fresh {name key serialized : Str} {db db₁ : DB} {ptrs : List Str}
    (h : loadPointers name db = (ptrs, db₁)) (hmem : entryKey name key ∉ ptrs) :
    set name key serialized db =
      (false, setPointers name (ptrs ++ [entryKey name key])
        (applyWrites db₁ (chunkWrites (entryKey name key) serialized))) := by
  unfold set
  rw [h]
  simp [hmem]

theorem set_eq_existing {name key serialized : Str} {db db₁ : DB} {ptrs : List Str}
    (h : loadPointers name db = (ptrs, db₁)) (hmem : entryKey name key ∈ ptrs) :
    set name key serialized db =
      (true, applyWrites (delete name key db₁)
        (chunkWrites (entryKey name key) serialized)) := by
  unfold set
  rw [h]
  simp [hmem]

theorem delete_eq_mem {name key : Str} {db db₁ : DB} {ptrs : List Str}
    (h : loadPointers name db = (ptrs, db₁)) (hmem : entryKey name key ∈ ptrs) :
    delete name key db =
      setPointers name (ptrs.filter (fun p => p ≠ entryKey name key))
        (bwrite (eraseParts db₁ (entryKey name key)) (entryKey name key) none) := by
  unfold delete
  rw [h]
  simp [hmem]

theorem delete_eq_not_mem {name key : Str} {db db₁ : DB} {ptrs : List Str}
    (h : loadPointers name db = (ptrs, db₁)) (hmem : entryKey name key ∉ ptrs) :
    delete name key db = db₁ := by
  unfold delete
  rw [h]
  simp [hmem]

theorem clear_eq {name : Str} {db db₁ : DB} {ptrs : List Str}
    (h : loadPointers name db = (ptrs, db₁)) :
    clear name db = setPointers name [] (ptrs.foldl clearStep db₁) := by
  unfold clear
  rw [h]

theorem entries_eq {name : Str} {db db₁ : DB} {ptrs : List Str}
    (h : loadPointers name db = (ptrs, db₁)) :
    entries name db =
      (ptrs.map (fun ptr => (lastPart ptr, get name (lastPart ptr) db₁)), db₁) := by
  unfold entries
  rw [h]

/-! ## `eraseParts` and `nApparent` -/

theorem nApparent_of_marker {db : DB} {dk : Str} {n : Nat}
    (h : db.backend dk = some (natToStr n)) : nApparent db dk = n := by
  unfold nApparent
  rw [h]
  simp [isDigits_natToStr, parseDigits_natToStr]

theorem nApparent_of_none {db : DB} {dk : Str} (h : db.backend dk = none) :
    nApparent db dk = 0 := by
  unfold nApparent
  rw [h]

theorem nApparent_of_not_digits {db : DB} {dk : Str} {m : Str}
    (h : db.backend dk = some m) (hm : isDigits m = false) : nApparent db dk = 0 := by
  unfold nApparent
  rw [h]
  simp [hm]

theorem foldl_bwrite_none_other {l : List Nat} {key : Nat → Str} {q : Str} (db : DB)
    (hq : ∀ j ∈ l, key j ≠ q) :
    ((l.foldl (fun d j => bwrite d (key j) none) db)).backend q = db.backend q := by
  induction l generalizing db with
  | nil => rfl
  | cons a l ih =>
    rw [List.foldl_cons, ih _ (fun j hj => hq j (List.mem_cons_of_mem _ hj))]
    rw [bwrite_backend, if_neg (fun hk => hq a (List.mem_cons_self _ _) hk.symm)]

theorem foldl_bwrite_none_mem {l : List Nat} {key : Nat → Str} {q : Str} (db : DB)
    (hq : ∃ j ∈ l, key j = q) :
    ((l.foldl (fun d j => bwrite d (key j) none) db)).backend q = none := by
  induction l generalizing db with
  | nil =>
    rcases hq with ⟨j, hj, _⟩
    cases hj
  | cons a l ih =>
    rw [List.foldl_cons]
    by_cases hmem : ∃ j ∈ l, key j = q
    · exact ih _ hmem
    · push_neg at hmem
      have ha : key a = q := by
        rcases hq with ⟨j, hj, hk⟩
        rcases List.mem_cons.mp hj with h | h
        · exact h ▸ hk
        · exact absurd hk (hmem j h)
      rw [foldl_bwrite_none_other _ (fun j hj hk => hmem j hj hk)]
      simp [ha.symm]

theorem foldl_bwrite_none_cached {l : List Nat} {key : Nat → Str} (db : DB) :
    ((l.foldl (fun d j => bwrite d (key j) none) db)).cached = db.cached := by
  induction l generalizing db with
  | nil => rfl
  | cons a l ih =>
    rw [List.foldl_cons]
    exact ih _

@[simp]
theorem eraseParts_cached (db : DB) (dk : Str) : (eraseParts db dk).cached = db.cached := by
  unfold eraseParts
  by_cases h : isDigits ((db.backend dk).getD []) = true
  · simp only [h, if_pos]
    exact foldl_bwrite_none_cached _
  · simp [h]

theorem eraseParts_backend_part {db : DB} {dk : Str} {i : Nat}
    (hi : i < nApparent db dk) :
    (eraseParts db dk).backend (partKey dk i) = none := by
  unfold eraseParts nApparent at *
  cases hb : db.backend dk with
  | none =>
    rw [hb] at hi
    simp at hi
  | some m =>
    rw [hb] at hi
    change i < if isDigits m = true then parseDigits m else 0 at hi
    by_cases hd : isDigits m = true
    · simp only [Option.getD_some, hd, if_pos] at hi ⊢
      exact foldl_bwrite_none_mem _ ⟨i, List.mem_range.mpr hi, rfl⟩
    · simp [hd] at hi

theorem eraseParts_backend_other {db : DB} {dk q : Str}
    (hq : ∀ i < nApparent db dk, q ≠ partKey dk i) :
    (eraseParts db dk).backend q = db.backend q := by
  unfold eraseParts nApparent at *
  cases hb : db.backend dk with
  | none => simp [hb, isDigits]
  | some m =>
    rw [hb] at hq
    change ∀ i < (if isDigits m = true then parseDigits m else 0), q ≠ partKey dk i at hq
    by_cases hd : isDigits m = true
    · simp only [Option.getD_some, hd, if_pos] at hq ⊢
      exact foldl_bwrite_none_other _ (fun j hj hk =>
        hq j (List.mem_range.mp hj) hk.symm)
    · simp [hd]

/-! ## Evaluating `get` -/

theorem get_of_backend_some {name key m : Str} {db : DB}
    (hb : db.backend (entryKey name key) = some m) :
    get name key db =
      if m = [] then none
      else if isDigits m then
        some ((List.range (parseDigits m)).foldl
          (fun acc i =>
            match db.backend (partKey (entryKey name key) i) with
            | some part => if part = [] then acc else acc ++ part
            | none => acc) [])
      else some m := by
  unfold get
  rw [hb]

theorem get_none_iff (name key : Str) (db : DB) :
    get name key db = none ↔
      (db.backend (entryKey name key) = none ∨ db.backend (entryKey name key) = some []) := by
  cases hb : db.backend (entryKey name key) with
  | none =>
    unfold get
    simp [hb]
  | some m =>
    rw [get_of_backend_some hb]
    by_cases hm : m = []
    · simp [hm]
    · by_cases hd : isDigits m = true
      · simp [hd, hm]
      · simp [hd, hm]

theorem get_direct {name key : Str} {db : DB} {m : Str}
    (hb : db.backend (entryKey name key) = some m) (hm : m ≠ [])
    (hd : isDigits m = false) : get name key db = some m := by
  rw [get_of_backend_some hb]
  simp [hm, hd]

theorem get_chunked {name key : Str} {db : DB} {n : Nat} (g : Nat → Str)
    (hb : db.backend (entryKey name key) = some (natToStr n))
    (hparts : ∀ i < n, db.backend (partKey (entryKey name key) i) = some (g i)) :
    get name key db = some (((List.range n).map g).flatten) := by
  rw [get_of_backend_some hb]
  rw [if_neg (natToStr_ne_nil n), if_pos (isDigits_natToStr n)]
  rw [parseDigits_natToStr]
  rw [get_fold_concat db (List.range n) g
    (fun i hi => hparts i (List.mem_range.mp hi)) []]
  simp

/-! ## Pointwise characterization of `delete` on a present key -/

theorem delete_cached_mem {name key : Str} {db db₁ : DB} {ptrs : List Str}
    (h : loadPointers name db = (ptrs, db₁)) (hmem : entryKey name key ∈ ptrs) :
    (delete name key db).cached =
      some (ptrs.filter (fun p => p ≠ entryKey name key)) := by
  rw [delete_eq_mem h hmem]
  simp

theorem delete_backend_base {name key : Str} {db db₁ : DB} {ptrs : List Str}
    (h : loadPointers name db = (ptrs, db₁)) (hmem : entryKey name key ∈ ptrs)
    (hneq : entryKey name key ≠ ptrKey name) :
    (delete name key db).backend (entryKey name key) = none := by
  rw [delete_eq_mem h hmem]
  simp [hneq]

theorem delete_backend_parts {name key : Str} {db db₁ : DB} {ptrs : List Str}
    (h : loadPointers name db = (ptrs, db₁)) (hmem : entryKey name key ∈ ptrs)
    (i : Nat) :
    (delete name key db).backend (partKey (entryKey name key) i) =
      if i < nApparent db₁ (entryKey name key) then none
      else db₁.backend (partKey (entryKey name key) i) := by
  rw [delete_eq_mem h hmem]
  rw [setPointers_backend, if_neg (partKey_ne_ptrKey _ name i)]
  rw [bwrite_backend, if_neg (partKey_ne_base _ i)]
  by_cases hi : i < nApparent db₁ (entryKey name key)
  · rw [if_pos hi]
    exact eraseParts_backend_part hi
  · rw [if_neg hi]
    exact eraseParts_backend_other (fun j hj hk => hi (partKey_inj hk ▸ hj))

theorem delete_backend_other {name key : Str} {db db₁ : DB} {ptrs : List Str} {q : Str}
    (h : loadPointers name db = (ptrs, db₁)) (hmem : entryKey name key ∈ ptrs)
    (hq1 : q ≠ ptrKey name) (hq2 : q ≠ entryKey name key)
    (hq3 : ∀ i < nApparent db₁ (entryKey name key), q ≠ partKey (entryKey name key) i) :
    (delete name key db).backend q = db₁.backend q := by
  rw [delete_eq_mem h hmem]
  rw [setPointers_backend, if_neg hq1, bwrite_backend, if_neg hq2]
  exact eraseParts_backend_other hq3

/-! ## More key facts -/

theorem natToStr_length_pos (n : Nat) : 0 < (natToStr n).length := by
  cases hn : natToStr n with
  | nil => exact absurd hn (natToStr_ne_nil n)
  | cons c s => simp

theorem partKey_length (dk : Str) (i : Nat) :
    (partKey dk i).length = dk.length + 5 + (natToStr i).length := by
  simp [partKey, str]
  omega

theorem ne_partKey_of_length_lt {p q : Str} {i : Nat} (h : p.length < q.length + 6) :
    p ≠ partKey q i := by
  intro he
  have hl := congrArg List.length he
  rw [partKey_length] at hl
  have := natToStr_length_pos i
  omega

theorem partKey_base_inj {p q : Str} {i j : Nat} (h : partKey p i = partKey q j)
    (hl : p.length = q.length) : p = q ∧ i = j := by
  unfold partKey at h
  have hl2 : (p ++ str "_part").length = (q ++ str "_part").length := by
    simp [hl]
  obtain ⟨h1, h2⟩ := List.append_inj h hl2
  obtain ⟨h3, _⟩ := List.append_inj h1 hl
  exact ⟨h3, natToStr_injective h2⟩

theorem get_congr {name key : Str} {dbA dbB : DB}
    (hbase : dbA.backend (entryKey name key) = dbB.backend (entryKey name key))
    (hparts : ∀ i, dbA.backend (partKey (entryKey name key) i) =
      dbB.backend (partKey (entryKey name key) i)) :
    get name key dbA = get name key dbB := by
  unfold get
  rw [hbase]
  cases dbB.backend (entryKey name key) with
  | none => rfl
  | some m =>
    by_cases hm : m = []
    · simp [hm]
    · by_cases hd : isDigits m = true
      · simp only [hm, hd, if_neg, if_pos, if_false, ite_false]
        congr 1
        apply List.foldl_ext
        intro acc i _
        rw [hparts i]
      · simp [hm, hd]

/-! ## Claim C8 -/

/-- C8: `set(k, v)` returns `true` exactly when the derived entry-key was
present in the pointer list the call loads, and `false` otherwise. -/
theorem c8_set_returns_existed (name key serialized : Str) (db : DB) :
    (set name key serialized db).1 = true ↔
      entryKey name key ∈ (loadPointers name db).1 := by
  rcases h : loadPointers name db with ⟨ptrs, db₁⟩
  by_cases hmem : entryKey name key ∈ ptrs
  · rw [set_eq_existing h hmem]
    simpa using hmem
  · rw [set_eq_fresh h hmem]
    simpa using hmem

/-! ## Claim C9 -/

/-- C9 counterexample: an entry that is present but holds the empty text is
reported as absent by `get` (the source tests `!meta`, which is true for the
empty string), refuting "a present entry whose stored text is empty is not
reported as absent". -/
theorem c9_counterexample :
    get (str "db") (str "e")
      { backend := fun k => if k = entryKey (str "db") (str "e") then some [] else none,
        cached := none } = none
    ∧ (fun k => if k = entryKey (str "db") (str "e") then some ([] : Str) else none)
        (entryKey (str "db") (str "e")) ≠ none := by
  constructor
  · decide
  · decide

/-- C9 (amended): `get` returns the absent result exactly when the backend
entry at the derived entry-key is absent **or holds the empty text**; a
present empty entry is folded into absence by the source's falsiness test. -/
theorem c9_get_absent_iff (name key : Str) (db : DB) :
    get name key db = none ↔
      (db.backend (entryKey name key) = none ∨ db.backend (entryKey name key) = some []) :=
  get_none_iff name key db

/-! ## Claim C2 -/

/-- C2: for text longer than `maxChunkSize`, the chunking phase of `set`
writes exactly `n = ceil(length / maxChunkSize)` part entries, in index
order, holding contiguous non-overlapping substrings of at most
`maxChunkSize` characters whose in-order concatenation is the text, followed
by the decimal chunk count under the base key; for text of length at most
`maxChunkSize`, it writes the text directly under the base key and writes no
part entries. -/
theorem c2_chunk_writes (dk text : Str) :
    (maxChunkSize < text.length →
      chunkWrites dk text =
        ((List.range (ceilDiv text.length maxChunkSize)).map
          (fun i => (partKey dk i, chunkOf text i)))
        ++ [(dk, natToStr (ceilDiv text.length maxChunkSize))]
      ∧ (∀ i, (chunkOf text i).length ≤ maxChunkSize)
      ∧ ((List.range (ceilDiv text.length maxChunkSize)).map (chunkOf text)).flatten = text
      ∧ 2 ≤ ceilDiv text.length maxChunkSize)
    ∧ (text.length ≤ maxChunkSize → chunkWrites dk text = [(dk, text)]) := by
  constructor
  · intro h
    refine ⟨chunkWrites_of_gt h, fun i => chunkOf_length_le _ _, flatten_chunks _ _ rfl, ?_⟩
    unfold ceilDiv maxChunkSize at *
    omega
  · intro h
    exact chunkWrites_of_le h

/-- C2 witness: a 30001-character text is stored as two parts plus the
marker `"2"`; a 2-character text is stored directly. -/
theorem c2_chunk_writes_witness :
    chunkWrites (str "k") (List.replicate 30001 'a') =
      ((List.range 2).map
        (fun i => (partKey (str "k") i, chunkOf (List.replicate 30001 'a') i)))
      ++ [(str "k", natToStr 2)]
    ∧ chunkWrites (str "k") (str "ab") = [(str "k", str "ab")] := by
  have hlen : (List.replicate 30001 'a' : Str).length = 30001 := by
    rw [List.length_replicate]
  have hbig : maxChunkSize < (List.replicate 30001 'a' : Str).length := by
    rw [hlen]
    decide
  have hn : ceilDiv (List.replicate 30001 'a' : Str).length maxChunkSize = 2 := by
    rw [hlen]
    decide
  constructor
  · have := (c2_chunk_writes (str "k") (List.replicate 30001 'a')).1 hbig
    rw [hn] at this
    exact this.1
  · exact (c2_chunk_writes (str "k") (str "ab")).2 (by decide)

/-! ## Claim C1 -/

theorem get_after_chunkWrites (name key serialized : Str) (db : DB)
    (hne : serialized ≠ [])
    (hshape : isDigits serialized = false ∨ maxChunkSize < serialized.length) :
    get name key (applyWrites db (chunkWrites (entryKey name key) serialized)) =
      some serialized := by
  rcases Nat.lt_or_ge maxChunkSize serialized.length with hbig | hsmall
  · have hb := @chunkWrites_backend_base (entryKey name key) serialized db hbig
    have hp : ∀ i < ceilDiv serialized.length maxChunkSize,
        (applyWrites db (chunkWrites (entryKey name key) serialized)).backend
          (partKey (entryKey name key) i) = some (chunkOf serialized i) :=
      fun _ hi => @chunkWrites_backend_part (entryKey name key) serialized db hbig _ hi
    rw [get_chunked (chunkOf serialized) hb hp]
    exact congrArg some (flatten_chunks _ serialized rfl)
  · have hd : isDigits serialized = false := by
      rcases hshape with hd | hlen
      · exact hd
      · omega
    rw [chunkWrites_of_le hsmall, applyWrites_cons, applyWrites_nil]
    exact get_direct (by simp) hne hd

/-- C1 counterexample: storing the value `5` (serialized text `"5"`) and
reading it back does not return the stored value: the all-digits text is
misread as a chunk count, the absent parts contribute nothing, and `get`
hands the empty text to `JSON.parse` (which throws in the source). -/
theorem c1_counterexample :
    get (str "db") (str "x") ((set (str "db") (str "x") (str "5") dbInit).2) = some []
    ∧ get (str "db") (str "x") ((set (str "db") (str "x") (str "5") dbInit).2)
        ≠ some (str "5") := by
  constructor
  · decide
  · decide

/-- C1 (amended): `set(k, v)` followed by `get(k)` on the same instance
returns the serialized value, from any starting state, provided the key is
not the reserved word `pointers` (whose entry-key collides with the index
key) and the serialized text is nonempty and either not all-digits or longer
than `maxChunkSize` (the single-chunk all-digits case trips the chunk-count
heuristic, and an empty text is reported absent). -/
theorem c1_roundtrip_amended (name key serialized : Str) (db : DB)
    (hkey : key ≠ str "pointers")
    (hne : serialized ≠ [])
    (hshape : isDigits serialized = false ∨ maxChunkSize < serialized.length) :
    get name key ((set name key serialized db).2) = some serialized := by
  have hdkp : entryKey name key ≠ ptrKey name := fun hh =>
    hkey ((entryKey_eq_ptrKey_iff name key).mp hh)
  rcases h : loadPointers name db with ⟨ptrs, db₁⟩
  by_cases hmem : entryKey name key ∈ ptrs
  · rw [set_eq_existing h hmem]
    exact get_after_chunkWrites name key serialized _ hne hshape
  · rw [set_eq_fresh h hmem]
    have hcongr : get name key (setPointers name (ptrs ++ [entryKey name key])
        (applyWrites db₁ (chunkWrites (entryKey name key) serialized))) =
        get name key (applyWrites db₁ (chunkWrites (entryKey name key) serialized)) := by
      apply get_congr
      · rw [setPointers_backend, if_neg hdkp]
      · intro i
        rw [setPointers_backend, if_neg (partKey_ne_ptrKey _ name i)]
    rw [hcongr]
    exact get_after_chunkWrites name key serialized db₁ hne hshape

/-- C1 witness: the amended round-trip at a short non-digit serialized text
and at a 30001-character (two-chunk) serialized text. -/
theorem c1_roundtrip_witness :
    get (str "db") (str "p") ((set (str "db") (str "p") (str "\x7b\"v\":1\x7d") dbInit).2) =
      some (str "\x7b\"v\":1\x7d")
    ∧ get (str "db") (str "big")
        ((set (str "db") (str "big") (List.replicate 30001 'a') dbInit).2) =
      some (List.replicate 30001 'a') := by
  constructor
  · exact c1_roundtrip_amended (str "db") (str "p") (str "\x7b\"v\":1\x7d") dbInit
      (by decide) (by decide) (Or.inl (by decide))
  · refine c1_roundtrip_amended (str "db") (str "big") (List.replicate 30001 'a') dbInit
      (by decide) ?_ (Or.inr ?_)
    · intro hnil
      have := congrArg List.length hnil
      rw [List.length_replicate] at this
      simp at this
    · rw [List.length_replicate]
      decide

/-! ## Claim C7 -/

/-- C7 counterexample: a pointer entry that exists but holds the empty text
is **not** left unchanged by the constructor — the falsiness test
`!world.getDynamicProperty(...)` treats it as missing and reinitializes it to
a serialized empty array. -/
theorem c7_counterexample :
    (construct (str "db") (fun k => if k = ptrKey (str "db") then some [] else none)).toOption.map
        (fun db => db.backend (ptrKey (str "db"))) = some (some (encodePointers []))
    ∧ some (encodePointers []) ≠ some ([] : Str) := by
  constructor
  · decide
  · decide

theorem construct_ok_init {name : Str} {backend : Str → Option Str}
    (hn : ¬ name = []) (hq : ¬ (name.contains '"' || name.contains '/') = true)
    (hinit : backend (ptrKey name) = none ∨ backend (ptrKey name) = some []) :
    construct name backend =
      .ok { backend := fun q => if q = ptrKey name then some (encodePointers []) else backend q,
            cached := none } := by
  unfold construct
  rw [if_neg hn, if_neg hq]
  rcases hinit with hb | hb
  · simp [hb]
  · simp [hb]

theorem construct_ok_keep {name : Str} {backend : Str → Option Str} {p : Str}
    (hn : ¬ name = []) (hq : ¬ (name.contains '"' || name.contains '/') = true)
    (hb : backend (ptrKey name) = some p) (hpe : p ≠ []) :
    construct name backend = .ok { backend := backend, cached := none } := by
  unfold construct
  rw [if_neg hn, if_neg hq]
  simp [hb, hpe]

/-- C7 (amended): construction fails exactly when the name is empty or
contains `"` or `/`; on success the cache is unset, no key other than the
index key is touched, an absent **or empty** index entry is initialized to a
serialized empty pointer list, and a nonempty index entry is left unchanged. -/
theorem c7_construct_amended (name : Str) (backend : Str → Option Str) :
    ((∃ e, construct name backend = .error e) ↔
      (name = [] ∨ name.contains '"' = true ∨ name.contains '/' = true))
    ∧ (∀ db, construct name backend = .ok db →
        db.cached = none
        ∧ (∀ q, q ≠ ptrKey name → db.backend q = backend q)
        ∧ ((backend (ptrKey name) = none ∨ backend (ptrKey name) = some []) →
            db.backend (ptrKey name) = some (encodePointers []))
        ∧ (∀ p, backend (ptrKey name) = some p → p ≠ [] →
            db.backend (ptrKey name) = some p)) := by
  by_cases hn : name = []
  · constructor
    · constructor
      · intro _
        exact Or.inl hn
      · intro _
        refine ⟨.emptyName, ?_⟩
        unfold construct
        rw [if_pos hn]
    · intro db heq
      unfold construct at heq
      rw [if_pos hn] at heq
      cases heq
  · by_cases hq : (name.contains '"' || name.contains '/') = true
    · constructor
      · constructor
        · intro _
          rcases Bool.or_eq_true _ _ |>.mp hq with h | h
          · exact Or.inr (Or.inl h)
          · exact Or.inr (Or.inr h)
        · intro _
          refine ⟨.invalidChar, ?_⟩
          unfold construct
          rw [if_neg hn, if_pos hq]
      · intro db heq
        unfold construct at heq
        rw [if_neg hn, if_pos hq] at heq
        cases heq
    · have hq2 : (name.contains '"' || name.contains '/') = false := by
        simpa using hq
      constructor
      · constructor
        · rintro ⟨e, he⟩
          unfold construct at he
          rw [if_neg hn, if_neg hq] at he
          cases he
        · intro hcontra
          exfalso
          rcases hcontra with h | h | h
          · exact hn h
          · rw [Bool.or_eq_true] at hq
            exact hq (Or.inl h)
          · rw [Bool.or_eq_true] at hq
            exact hq (Or.inr h)
      · intro db heq
        cases hb : backend (ptrKey name) with
        | none =>
          rw [construct_ok_init hn hq (Or.inl hb)] at heq
          cases heq
          refine ⟨rfl, ?_, ?_, ?_⟩
          · intro q hqn
            simp [hqn]
          · intro _
            simp
          · intro p hp
            cases hp
        | some p =>
          by_cases hpe : p = []
          · rw [construct_ok_init hn hq (Or.inr (hpe ▸ hb))] at heq
            cases heq
            refine ⟨rfl, ?_, ?_, ?_⟩
            · intro q hqn
              simp [hqn]
            · intro _
              simp
            · intro p2 hp2 hne2
              cases hp2
              exact absurd hpe hne2
          · rw [construct_ok_keep hn hq hb hpe] at heq
            cases heq
            refine ⟨rfl, fun q _ => rfl, ?_, ?_⟩
            · intro hcase
              rcases hcase with h | h
              · cases h
              · cases h
                exact absurd rfl hpe
            · intro p2 hp2 _
              cases hp2
              exact hb

/-- C7 witness: the empty name fails; on a fresh backend the index entry is
initialized; a nonempty existing index entry survives construction. -/
theorem c7_construct_witness :
    (∃ e, construct (str "") (fun _ => none) = .error e)
    ∧ (construct (str "rc1") (fun _ => none)).toOption.map
        (fun db => db.backend (ptrKey (str "rc1"))) = some (some (encodePointers []))
    ∧ (construct (str "rc1") (fun _ => some (str "old"))).toOption.map
        (fun db => db.backend (ptrKey (str "rc1"))) = some (some (str "old")) := by
  refine ⟨(c7_construct_amended (str "") (fun _ => none)).1.mpr (Or.inl (by decide)), ?_, ?_⟩
  · cases hc : construct (str "rc1") (fun _ => none) with
    | error e =>
      have := (c7_construct_amended (str "rc1") (fun _ => none)).1.mp ⟨e, hc⟩
      rcases this with h | h | h
      · exact absurd h (by decide)
      · exact absurd h (by decide)
      · exact absurd h (by decide)
    | ok db =>
      have hk := ((c7_construct_amended (str "rc1") (fun _ => none)).2 db hc).2.2.1
        (Or.inl rfl)
      simp [Except.toOption, hk]
  · cases hc : construct (str "rc1") (fun _ => some (str "old")) with
    | error e =>
      have := (c7_construct_amended (str "rc1") (fun _ => some (str "old"))).1.mp ⟨e, hc⟩
      rcases this with h | h | h
      · exact absurd h (by decide)
      · exact absurd h (by decide)
      · exact absurd h (by decide)
    | ok db =>
      have hk := ((c7_construct_amended (str "rc1") (fun _ => some (str "old"))).2 db hc).2.2.2
        (str "old") rfl (by decide)
      simp [Except.toOption, hk]

theorem chunkedDb_beyond : ∀ i, 2 ≤ i →
    chunkedDb.backend (partKey (entryKey (str "db") (str "x")) i) = none := by
  intro i hi
  have e : chunkedDb.backend (partKey (entryKey (str "db") (str "x")) i) =
      (if partKey (entryKey (str "db") (str "x")) i = ptrKey (str "db") then
        some (encodePointers [entryKey (str "db") (str "x")])
      else if partKey (entryKey (str "db") (str "x")) i = entryKey (str "db") (str "x") then
        some (natToStr 2)
      else if partKey (entryKey (str "db") (str "x")) i =
          partKey (entryKey (str "db") (str "x")) 0 then some (str "ab")
      else if partKey (entryKey (str "db") (str "x")) i =
          partKey (entryKey (str "db") (str "x")) 1 then some (str "c")
      else none) := rfl
  rw [e, if_neg (partKey_ne_ptrKey _ _ _), if_neg (partKey_ne_base _ _),
    if_neg (fun hk => by have := partKey_inj hk; omega),
    if_neg (fun hk => by have := partKey_inj hk; omega)]

/-! ## Claim C3 -/

/-- C3: overwriting a key whose current entry is a multi-chunk marker (count
`n ≥ 2`, with no parts beyond `n`) by a value whose serialized text fits in a
single chunk leaves no chunk-part entry for that key in the backend. -/
theorem c3_overwrite_clears_parts (name key serialized : Str) (db : DB) (ptrs : List Str)
    (n : Nat)
    (hc : db.cached = some ptrs)
    (hmem : entryKey name key ∈ ptrs)
    (hmarker : db.backend (entryKey name key) = some (natToStr n))
    (_hn : 2 ≤ n)
    (hbeyond : ∀ i, n ≤ i → db.backend (partKey (entryKey name key) i) = none)
    (hsmall : serialized.length ≤ maxChunkSize) :
    ∀ i, ((set name key serialized db).2).backend (partKey (entryKey name key) i) = none := by
  intro i
  have h := loadPointers_of_cached name hc
  rw [set_eq_existing h hmem]
  rw [chunkWrites_of_le hsmall, applyWrites_cons, applyWrites_nil, bwrite_backend,
    if_neg (partKey_ne_base _ i)]
  rw [delete_backend_parts h hmem i, nApparent_of_marker hmarker]
  by_cases hi : i < n
  · rw [if_pos hi]
  · rw [if_neg hi]
    exact hbeyond i (by omega)

/-- C3 witness: overwriting the two-chunk entry `db/x` of `chunkedDb` with a
short text deletes both stored parts (index 0 shown) and leaves the part
space empty beyond them (index 7 shown). -/
theorem c3_overwrite_clears_parts_witness :
    ((set (str "db") (str "x") (str "s") chunkedDb).2).backend
      (partKey (entryKey (str "db") (str "x")) 0) = none
    ∧ ((set (str "db") (str "x") (str "s") chunkedDb).2).backend
      (partKey (entryKey (str "db") (str "x")) 7) = none := by
  have H := c3_overwrite_clears_parts (str "db") (str "x") (str "s") chunkedDb
    [entryKey (str "db") (str "x")] 2 rfl (by simp) (by decide) (by decide)
    chunkedDb_beyond (by decide)
  exact ⟨H 0, H 7⟩

/-! ## Claim C4 -/

/-- C4 counterexample: after populating keys `a/x` and `x` and deleting `x`,
the sequence returned by `entries` still contains a pair whose key is `x`:
the surviving pointer `db/a/x` derives its key as the suffix after the final
`/`, which is again `x`.  This refutes "k does not appear in the sequence
returned by entries()". -/
theorem c4_counterexample :
    ((entries (str "db")
        (delete (str "db") (str "x")
          (set (str "db") (str "x") (str "u")
            ((set (str "db") (str "a/x") (str "t") dbInit).2)).2)).1.map Prod.fst)
      = [str "x"] := by
  decide

/-- C4 (amended): after `delete(k)` on a present key `k` (not the reserved
word `pointers`, with no parts beyond its apparent chunk count), `get(k)`
returns absent, `k`'s entry-key leaves the pointer list, and no chunk part
for `k` remains; `k` is absent from the keys emitted by `entries()` provided
no other live entry-key has final-`/`-suffix equal to `k`. -/
theorem c4_delete_completeness_amended (name key : Str) (db : DB) (ptrs : List Str)
    (hc : db.cached = some ptrs)
    (hmem : entryKey name key ∈ ptrs)
    (hkey : key ≠ str "pointers")
    (hbeyond : ∀ i, nApparent db (entryKey name key) ≤ i →
      db.backend (partKey (entryKey name key) i) = none) :
    get name key (delete name key db) = none
    ∧ entryKey name key ∉ ((delete name key db).cached.getD [])
    ∧ (∀ i, (delete name key db).backend (partKey (entryKey name key) i) = none)
    ∧ ((∀ p ∈ ptrs, p ≠ entryKey name key → lastPart p ≠ key) →
        ∀ pr ∈ (entries name (delete name key db)).1, pr.1 ≠ key) := by
  have h := loadPointers_of_cached name hc
  have hdkp : entryKey name key ≠ ptrKey name := fun hh =>
    hkey ((entryKey_eq_ptrKey_iff name key).mp hh)
  have hcach := delete_cached_mem h hmem
  refine ⟨?_, ?_, ?_, ?_⟩
  · rw [get_none_iff]
    exact Or.inl (delete_backend_base h hmem hdkp)
  · rw [hcach]
    simp
  · intro i
    rw [delete_backend_parts h hmem i]
    by_cases hi : i < nApparent db (entryKey name key)
    · rw [if_pos hi]
    · rw [if_neg hi]
      exact hbeyond i (by omega)
  · intro hsuffix pr hpr
    rw [entries_eq (loadPointers_of_cached name hcach)] at hpr
    rcases List.mem_map.mp hpr with ⟨p, hp, rfl⟩
    have hp2 := List.mem_filter.mp hp
    have hpne : p ≠ entryKey name key := by
      have := hp2.2
      simpa using this
    exact hsuffix p hp2.1 hpne

/-- C4 witness: deleting the chunked key `x` of `chunkedDb` leaves it absent,
unlinked, part-free, and unreported by `entries`. -/
theorem c4_delete_completeness_witness :
    get (str "db") (str "x") (delete (str "db") (str "x") chunkedDb) = none
    ∧ entryKey (str "db") (str "x") ∉
        ((delete (str "db") (str "x") chunkedDb).cached.getD [])
    ∧ (delete (str "db") (str "x") chunkedDb).backend
        (partKey (entryKey (str "db") (str "x")) 1) = none := by
  have hbeyond : ∀ i, nApparent chunkedDb (entryKey (str "db") (str "x")) ≤ i →
      chunkedDb.backend (partKey (entryKey (str "db") (str "x")) i) = none := by
    have hmk : chunkedDb.backend (entryKey (str "db") (str "x")) = some (natToStr 2) := by
      decide
    rw [nApparent_of_marker hmk]
    exact chunkedDb_beyond
  have H := c4_delete_completeness_amended (str "db") (str "x") chunkedDb
    [entryKey (str "db") (str "x")] rfl (by simp) (by decide) hbeyond
  exact ⟨H.1, H.2.1, H.2.2.1 1⟩

/-! ## Claim C10 -/

/-- C10: overwriting an existing key does **not** reposition it — it drops it
from the pointer list entirely.  The `pointers` array captured at the top of
`set` still contains the entry-key after the internal `delete` replaced the
cached array with a filtered copy, so the `!pointers.includes(dynamicKey)`
re-add test at line 93 fails and the pointer is never re-added: after two
`set` calls on the same key, the cached (and persisted) pointer list is empty
and `entries()` omits the key, even though the value itself is stored. -/
theorem c10_overwrite_drops_pointer :
    ((set (str "db") (str "pos") (str "\x7b\"x\":9\x7d")
        ((set (str "db") (str "pos") (str "\x7b\"x\":1\x7d") dbInit).2)).2).cached = some []
    ∧ (entries (str "db")
        ((set (str "db") (str "pos") (str "\x7b\"x\":9\x7d")
          ((set (str "db") (str "pos") (str "\x7b\"x\":1\x7d") dbInit).2)).2)).1 = []
    ∧ ((set (str "db") (str "pos") (str "\x7b\"x\":9\x7d")
        ((set (str "db") (str "pos") (str "\x7b\"x\":1\x7d") dbInit).2)).2).backend
        (entryKey (str "db") (str "pos")) = some (str "\x7b\"x\":9\x7d") := by
  refine ⟨by decide, by decide, by decide⟩

/-! ## Claim C6 -/

theorem ptrGood_delete (name key : Str) (db : DB) (h : PtrGood name db) :
    PtrGood name (delete name key db) := by
  obtain ⟨l, hc, hnd, hb⟩ := h
  have hload := loadPointers_of_cached name hc
  by_cases hmem : entryKey name key ∈ l
  · rw [delete_eq_mem hload hmem]
    exact ⟨l.filter (fun p => p ≠ entryKey name key), by simp, hnd.filter _, by simp⟩
  · rw [delete_eq_not_mem hload hmem]
    exact ⟨l, hc, hnd, hb⟩

theorem ptrGood_clear (name : Str) (db : DB) (h : PtrGood name db) :
    PtrGood name (clear name db) := by
  obtain ⟨l, hc, _, _⟩ := h
  rw [clear_eq (loadPointers_of_cached name hc)]
  exact ⟨[], by simp, List.nodup_nil, by simp⟩

theorem nodup_concat_of_not_mem {l : List Str} {a : Str} (hnd : l.Nodup) (ha : a ∉ l) :
    (l ++ [a]).Nodup := by
  rw [List.nodup_append]
  refine ⟨hnd, List.nodup_singleton _, ?_⟩
  intro x hx hx2
  simp at hx2
  subst hx2
  exact ha hx

theorem ptrGood_set (name key serialized : Str) (db : DB)
    (hne : entryKey name key ≠ ptrKey name) (h : PtrGood name db) :
    PtrGood name (set name key serialized db).2 := by
  obtain ⟨l, hc, hnd, hb⟩ := h
  have hload := loadPointers_of_cached name hc
  by_cases hmem : entryKey name key ∈ l
  · rw [set_eq_existing hload hmem]
    obtain ⟨l2, hc2, hnd2, hb2⟩ := ptrGood_delete name key db ⟨l, hc, hnd, hb⟩
    refine ⟨l2, ?_, hnd2, ?_⟩
    · rw [applyWrites_cached]
      exact hc2
    · rw [chunkWrites_backend_other _ _ (fun hq => hne hq.symm)
        (fun i _ hq => partKey_ne_ptrKey _ name i hq.symm)]
      exact hb2
  · rw [set_eq_fresh hload hmem]
    exact ⟨l ++ [entryKey name key], by simp, nodup_concat_of_not_mem hnd hmem, by simp⟩

theorem set_cached_nodup (name key serialized : Str) (db : DB) (h : PtrGood name db) :
    ∀ l2, ((set name key serialized db).2).cached = some l2 → l2.Nodup := by
  obtain ⟨l, hc, hnd, _⟩ := h
  have hload := loadPointers_of_cached name hc
  intro l2 hl2
  by_cases hmem : entryKey name key ∈ l
  · rw [set_eq_existing hload hmem, applyWrites_cached,
      delete_cached_mem hload hmem] at hl2
    cases hl2
    exact hnd.filter _
  · rw [set_eq_fresh hload hmem, setPointers_cached] at hl2
    cases hl2
    exact nodup_concat_of_not_mem hnd hmem

/-- C6 counterexample: the key `pointers` derives the entry-key
`db/pointers`, which **is** the index key.  Setting it twice to the text
`["a","a"]` (the serialization of the array value `["a","a"]`) ends with the
persisted pointer entry holding that text: a fresh instance would load the
pointer list `["a","a"]`, which contains a duplicate.  The persisted pointer
list is therefore not duplicate-free after repeated `set` calls on that key. -/
theorem c6_counterexample :
    (((set (str "db") (str "pointers") (str "[\"a\",\"a\"]")
        ((set (str "db") (str "pointers") (str "[\"a\",\"a\"]") dbInit).2)).2).backend
      (ptrKey (str "db"))).bind decodePointers = some [str "a", str "a"]
    ∧ ¬ ([str "a", str "a"] : List Str).Nodup := by
  refine ⟨by decide, by decide⟩

/-- C6 (amended): starting from a state whose cached pointer list is
duplicate-free and persisted in sync, `delete` and `clear` preserve that
invariant for any key; `set` always leaves a duplicate-free **cached** list,
and preserves the full invariant (including the persisted copy) provided the
entry-key is not the index key itself (i.e. the key is not `pointers`, whose
value write clobbers the persisted pointer entry); in particular any number
of repeated `set` calls on such a key preserves the invariant. -/
theorem c6_pointer_nodup_amended (name key serialized : Str) (db : DB)
    (h : PtrGood name db) :
    PtrGood name (delete name key db)
    ∧ PtrGood name (clear name db)
    ∧ (∀ l2, ((set name key serialized db).2).cached = some l2 → l2.Nodup)
    ∧ (entryKey name key ≠ ptrKey name →
        ∀ m, PtrGood name (setN name key serialized m db)) := by
  refine ⟨ptrGood_delete name key db h, ptrGood_clear name db h,
    set_cached_nodup name key serialized db h, ?_⟩
  intro hne m
  induction m generalizing db with
  | zero => exact h
  | succ m ih =>
    unfold setN
    exact ih _ (ptrGood_set name key serialized db hne h)

/-- C6 witness: the invariant on `mixedDb` survives a delete and three
repeated sets. -/
theorem c6_pointer_nodup_witness :
    PtrGood (str "db") (delete (str "db") (str "a") mixedDb)
    ∧ PtrGood (str "db") (setN (str "db") (str "a") (str "s") 3 mixedDb) := by
  have hg : PtrGood (str "db") mixedDb :=
    ⟨[entryKey (str "db") (str "a"), entryKey (str "db") (str "b")], rfl, by decide, rfl⟩
  have H := c6_pointer_nodup_amended (str "db") (str "a") (str "s") mixedDb hg
  refine ⟨H.1, H.2.2.2 ?_ 3⟩
  intro hh
  exact absurd ((entryKey_eq_ptrKey_iff _ _).mp hh) (by decide)

/-! ## `clearStep` and the `clear` fold -/

@[simp]
theorem clearStep_cached (db : DB) (dk : Str) : (clearStep db dk).cached = db.cached := by
  simp [clearStep]

theorem clearStep_backend_self (db : DB) (dk : Str) :
    (clearStep db dk).backend dk = none := by
  simp [clearStep]

theorem clearStep_backend_part (db : DB) (dk : Str) {i : Nat}
    (hi : i < nApparent db dk) :
    (clearStep db dk).backend (partKey dk i) = none := by
  unfold clearStep
  rw [bwrite_backend, if_neg (partKey_ne_base dk i)]
  exact eraseParts_backend_part hi

theorem clearStep_backend_other (db : DB) (dk q : Str) (h1 : q ≠ dk)
    (h2 : ∀ i < nApparent db dk, q ≠ partKey dk i) :
    (clearStep db dk).backend q = db.backend q := by
  unfold clearStep
  rw [bwrite_backend, if_neg h1]
  exact eraseParts_backend_other h2

theorem foldl_bwrite_none_none_or {l : List Nat} {key : Nat → Str} (db : DB) (q : Str) :
    ((l.foldl (fun d j => bwrite d (key j) none) db)).backend q = none
    ∨ ((l.foldl (fun d j => bwrite d (key j) none) db)).backend q = db.backend q := by
  induction l generalizing db with
  | nil => exact Or.inr rfl
  | cons a l ih =>
    rw [List.foldl_cons]
    rcases ih (bwrite db (key a) none) with h | h
    · exact Or.inl h
    · rw [h, bwrite_backend]
      by_cases hq : q = key a
      · simp [hq]
      · rw [if_neg hq]
        exact Or.inr rfl

theorem eraseParts_backend_none_or (db : DB) (dk q : Str) :
    (eraseParts db dk).backend q = none ∨ (eraseParts db dk).backend q = db.backend q := by
  unfold eraseParts
  by_cases hd : isDigits ((db.backend dk).getD []) = true
  · simp only [hd, if_pos]
    exact foldl_bwrite_none_none_or db q
  · simp [hd]

theorem clearStep_backend_none_or (db : DB) (dk q : Str) :
    (clearStep db dk).backend q = none ∨ (clearStep db dk).backend q = db.backend q := by
  unfold clearStep
  rw [bwrite_backend]
  by_cases hq : q = dk
  · simp [hq]
  · rw [if_neg hq]
    exact eraseParts_backend_none_or db dk q

theorem foldl_clearStep_none_or (ptrs : List Str) (db : DB) (q : Str) :
    (ptrs.foldl clearStep db).backend q = none
    ∨ (ptrs.foldl clearStep db).backend q = db.backend q := by
  induction ptrs generalizing db with
  | nil => exact Or.inr rfl
  | cons d rest ih =>
    rw [List.foldl_cons]
    rcases ih (clearStep db d) with h | h
    · exact Or.inl h
    · rw [h]
      exact clearStep_backend_none_or db d q

theorem foldl_clearStep_base (ptrs : List Str) (db : DB) {p : Str} (hp : p ∈ ptrs) :
    (ptrs.foldl clearStep db).backend p = none := by
  induction ptrs generalizing db with
  | nil => cases hp
  | cons d rest ih =>
    rw [List.foldl_cons]
    by_cases hpr : p ∈ rest
    · exact ih _ hpr
    · have hpd : p = d := by
        rcases List.mem_cons.mp hp with h | h
        · exact h
        · exact absurd h hpr
      subst hpd
      rcases foldl_clearStep_none_or rest (clearStep db p) p with h | h
      · exact h
      · rw [h]
        exact clearStep_backend_self db p

theorem nApparent_congr {dbA dbB : DB} {p : Str}
    (h : dbA.backend p = dbB.backend p) : nApparent dbA p = nApparent dbB p := by
  unfold nApparent
  rw [h]

theorem foldl_clearStep_parts (ptrs : List Str) (db : DB)
    (hnd : ptrs.Nodup)
    (hwf : ∀ p ∈ ptrs, WellFormedAt db p)
    (hdisj : ∀ p ∈ ptrs, ∀ q ∈ ptrs, ∀ i, p ≠ partKey q i)
    (p : Str) (hp : p ∈ ptrs) (i : Nat) :
    (ptrs.foldl clearStep db).backend (partKey p i) = none := by
  induction ptrs generalizing db with
  | nil => cases hp
  | cons d rest ih =>
    rw [List.foldl_cons]
    by_cases hpr : p ∈ rest
    · apply ih (clearStep db d) (List.nodup_cons.mp hnd).2 ?_ ?_ hpr
      · intro q hq j hj
        have hqd : q ≠ d := fun he => (List.nodup_cons.mp hnd).1 (he ▸ hq)
        have hqparts : ∀ i2 < nApparent db d, q ≠ partKey d i2 :=
          fun i2 _ => hdisj q (List.mem_cons_of_mem _ hq) d (List.mem_cons_self _ _) i2
        have hbq : (clearStep db d).backend q = db.backend q :=
          clearStep_backend_other db d q hqd hqparts
        rw [nApparent_congr hbq] at hj
        rcases clearStep_backend_none_or db d (partKey q j) with h | h
        · exact h
        · rw [h]
          exact hwf q (List.mem_cons_of_mem _ hq) j hj
      · intro a ha b hb j
        exact hdisj a (List.mem_cons_of_mem _ ha) b (List.mem_cons_of_mem _ hb) j
    · have hpd : p = d := by
        rcases List.mem_cons.mp hp with h | h
        · exact h
        · exact absurd h hpr
      subst hpd
      have hstep : (clearStep db p).backend (partKey p i) = none := by
        by_cases hi : i < nApparent db p
        · exact clearStep_backend_part db p hi
        · have heq : (clearStep db p).backend (partKey p i) =
              db.backend (partKey p i) :=
            clearStep_backend_other db p (partKey p i) (partKey_ne_base p i)
              (fun j hj he => hi (partKey_inj he ▸ hj))
          rw [heq]
          exact hwf p (List.mem_cons_self _ _) i (by omega)
      rcases foldl_clearStep_none_or rest (clearStep db p) (partKey p i) with h | h
      · exact h
      · rw [h]
        exact hstep

/-! ## Claim C5 -/

/-- C5 (amended): `clear` empties the database — afterwards `entries()` is
empty, the cached and persisted pointer lists are empty, and every
previously pointed-to base entry and all its chunk parts are gone — provided
the pointed-to entries are well formed (no parts beyond their apparent chunk
counts), no pointed-to entry-key is the index key, and no pointed-to
entry-key is itself a chunk-part key of a pointed-to entry (as is the case
whenever keys avoid the `_part` suffix pattern). -/
theorem c5_clear_amended (name : Str) (db : DB) (ptrs : List Str)
    (hc : db.cached = some ptrs)
    (hnd : ptrs.Nodup)
    (hwf : ∀ p ∈ ptrs, WellFormedAt db p)
    (hnp : ∀ p ∈ ptrs, p ≠ ptrKey name)
    (hdisj : ∀ p ∈ ptrs, ∀ q ∈ ptrs, ∀ i, p ≠ partKey q i) :
    (entries name (clear name db)).1 = []
    ∧ (clear name db).cached = some []
    ∧ (clear name db).backend (ptrKey name) = some (encodePointers [])
    ∧ (∀ p ∈ ptrs, (clear name db).backend p = none)
    ∧ (∀ p ∈ ptrs, ∀ i, (clear name db).backend (partKey p i) = none) := by
  have hload := loadPointers_of_cached name hc
  have hceq := clear_eq hload
  have hcach : (clear name db).cached = some [] := by
    rw [hceq]
    simp
  refine ⟨?_, hcach, ?_, ?_, ?_⟩
  · rw [entries_eq (loadPointers_of_cached name hcach)]
    simp
  · rw [hceq]
    simp
  · intro p hp
    rw [hceq, setPointers_backend, if_neg (hnp p hp)]
    exact foldl_clearStep_base ptrs db hp
  · intro p hp i
    rw [hceq, setPointers_backend, if_neg (partKey_ne_ptrKey p name i)]
    exact foldl_clearStep_parts ptrs db hnd hwf hdisj p hp i

theorem mixedDb_parts_a (i : Nat) :
    mixedDb.backend (partKey (entryKey (str "db") (str "a")) i) = none := by
  have e : mixedDb.backend (partKey (entryKey (str "db") (str "a")) i) =
      (if partKey (entryKey (str "db") (str "a")) i = ptrKey (str "db") then
        some (encodePointers [entryKey (str "db") (str "a"), entryKey (str "db") (str "b")])
      else if partKey (entryKey (str "db") (str "a")) i = entryKey (str "db") (str "a") then
        some (str "t")
      else if partKey (entryKey (str "db") (str "a")) i = entryKey (str "db") (str "b") then
        some (natToStr 2)
      else if partKey (entryKey (str "db") (str "a")) i =
          partKey (entryKey (str "db") (str "b")) 0 then some (str "uv")
      else if partKey (entryKey (str "db") (str "a")) i =
          partKey (entryKey (str "db") (str "b")) 1 then some (str "w")
      else none) := rfl
  rw [e, if_neg (partKey_ne_ptrKey _ _ _), if_neg (partKey_ne_base _ _),
    if_neg (Ne.symm (ne_partKey_of_length_lt (by decide))),
    if_neg (fun hk => absurd (partKey_base_inj hk (by decide)).1 (by decide)),
    if_neg (fun hk => absurd (partKey_base_inj hk (by decide)).1 (by decide))]

theorem mixedDb_parts_b (i : Nat) (hi : 2 ≤ i) :
    mixedDb.backend (partKey (entryKey (str "db") (str "b")) i) = none := by
  have e : mixedDb.backend (partKey (entryKey (str "db") (str "b")) i) =
      (if partKey (entryKey (str "db") (str "b")) i = ptrKey (str "db") then
        some (encodePointers [entryKey (str "db") (str "a"), entryKey (str "db") (str "b")])
      else if partKey (entryKey (str "db") (str "b")) i = entryKey (str "db") (str "a") then
        some (str "t")
      else if partKey (entryKey (str "db") (str "b")) i = entryKey (str "db") (str "b") then
        some (natToStr 2)
      else if partKey (entryKey (str "db") (str "b")) i =
          partKey (entryKey (str "db") (str "b")) 0 then some (str "uv")
      else if partKey (entryKey (str "db") (str "b")) i =
          partKey (entryKey (str "db") (str "b")) 1 then some (str "w")
      else none) := rfl
  rw [e, if_neg (partKey_ne_ptrKey _ _ _),
    if_neg (Ne.symm (ne_partKey_of_length_lt (by decide))),
    if_neg (partKey_ne_base _ _),
    if_neg (fun hk => by have := partKey_inj hk; omega),
    if_neg (fun hk => by have := partKey_inj hk; omega)]

/-- C5 witness: clearing `mixedDb` (one direct entry, one two-chunk entry)
empties everything. -/
theorem c5_clear_amended_witness :
    (entries (str "db") (clear (str "db") mixedDb)).1 = []
    ∧ (clear (str "db") mixedDb).cached = some []
    ∧ (clear (str "db") mixedDb).backend (ptrKey (str "db")) = some (encodePointers [])
    ∧ (clear (str "db") mixedDb).backend (entryKey (str "db") (str "a")) = none
    ∧ (clear (str "db") mixedDb).backend
        (partKey (entryKey (str "db") (str "b")) 1) = none := by
  have hwf : ∀ p ∈ [entryKey (str "db") (str "a"), entryKey (str "db") (str "b")],
      WellFormedAt mixedDb p := by
    intro p hp
    rcases List.mem_cons.mp hp with rfl | hp2
    · intro i _
      exact mixedDb_parts_a i
    · rcases List.mem_cons.mp hp2 with rfl | hp3
      · have hmk : mixedDb.backend (entryKey (str "db") (str "b")) = some (natToStr 2) := by
          decide
        intro i hi
        rw [nApparent_of_marker hmk] at hi
        exact mixedDb_parts_b i hi
      · cases hp3
  have hdisj : ∀ p ∈ [entryKey (str "db") (str "a"), entryKey (str "db") (str "b")],
      ∀ q ∈ [entryKey (str "db") (str "a"), entryKey (str "db") (str "b")],
      ∀ i, p ≠ partKey q i := by
    intro p hp q hq i
    rcases List.mem_cons.mp hp with rfl | hp2
    · rcases List.mem_cons.mp hq with rfl | hq2
      · exact ne_partKey_of_length_lt (by decide)
      · rcases List.mem_cons.mp hq2 with rfl | hq3
        · exact ne_partKey_of_length_lt (by decide)
        · cases hq3
    · rcases List.mem_cons.mp hp2 with rfl | hp3
      · rcases List.mem_cons.mp hq with rfl | hq2
        · exact ne_partKey_of_length_lt (by decide)
        · rcases List.mem_cons.mp hq2 with rfl | hq3
          · exact ne_partKey_of_length_lt (by decide)
          · cases hq3
      · cases hp3
  have hnp : ∀ p ∈ [entryKey (str "db") (str "a"), entryKey (str "db") (str "b")],
      p ≠ ptrKey (str "db") := by
    intro p hp
    rcases List.mem_cons.mp hp with rfl | hp2
    · decide
    · rcases List.mem_cons.mp hp2 with rfl | hp3
      · decide
      · cases hp3
  have H := c5_clear_amended (str "db") mixedDb
    [entryKey (str "db") (str "a"), entryKey (str "db") (str "b")]
    rfl (by decide) hwf hnp hdisj
  exact ⟨H.1, H.2.1, H.2.2.1,
    H.2.2.2.1 _ (List.mem_cons_self _ _),
    H.2.2.2.2 _ (List.mem_cons_of_mem _ (List.mem_cons_self _ _)) 1⟩

/-- C5 counterexample: populate a fresh database with the two-chunk keys `x`
and `x_part0` (both legitimate `set` calls with 30001-character serialized
texts), then `clear`.  The entry-key `db/x_part0` is also the part-0 key of
`db/x`, so processing `db/x` first deletes `db/x_part0` — the marker of the
second entry — and when `clear` then processes `db/x_part0` it finds no
marker and skips its parts: the chunk part `db/x_part0_part0` of the
pointed-to entry `db/x_part0` survives `clear`. -/
theorem c5_counterexample :
    ((clear (str "db")
        ((set (str "db") (str "x_part0") (List.replicate 30001 'b')
          ((set (str "db") (str "x") (List.replicate 30001 'a') dbInit).2)).2)).backend
      (partKey (entryKey (str "db") (str "x_part0")) 0)).isSome = true := by
  have hA : (List.replicate 30001 'a' : Str).length = 30001 := by
    rw [List.length_replicate]
  have hB : (List.replicate 30001 'b' : Str).length = 30001 := by
    rw [List.length_replicate]
  have hbigA : maxChunkSize < (List.replicate 30001 'a' : Str).length := by
    rw [hA]
    decide
  have hbigB : maxChunkSize < (List.replicate 30001 'b' : Str).length := by
    rw [hB]
    decide
  have hnA : ceilDiv (List.replicate 30001 'a' : Str).length maxChunkSize = 2 := by
    rw [hA]
    decide
  have hnB : ceilDiv (List.replicate 30001 'b' : Str).length maxChunkSize = 2 := by
    rw [hB]
    decide
  have hdk1p : entryKey (str "db") (str "x") ≠ ptrKey (str "db") := by decide
  have hKp : partKey (entryKey (str "db") (str "x_part0")) 0 ≠ ptrKey (str "db") :=
    partKey_ne_ptrKey _ _ _
  have h1 : loadPointers (str "db") dbInit = ([], { dbInit with cached := some [] }) := rfl
  have hm1 : entryKey (str "db") (str "x") ∉ ([] : List Str) := List.not_mem_nil _
  have e1 : (set (str "db") (str "x") (List.replicate 30001 'a') dbInit).2 =
      setPointers (str "db") [entryKey (str "db") (str "x")]
        (applyWrites { dbInit with cached := some [] }
          (chunkWrites (entryKey (str "db") (str "x")) (List.replicate 30001 'a'))) := by
    rw [set_eq_fresh h1 hm1]
    rfl
  have h2 : loadPointers (str "db") ((set (str "db") (str "x")
      (List.replicate 30001 'a') dbInit).2) =
      ([entryKey (str "db") (str "x")],
        (set (str "db") (str "x") (List.replicate 30001 'a') dbInit).2) :=
    loadPointers_of_cached _ (by rw [e1]; rfl)
  have hm2 : entryKey (str "db") (str "x_part0") ∉ [entryKey (str "db") (str "x")] := by
    decide
  have e2 : (set (str "db") (str "x_part0") (List.replicate 30001 'b')
      ((set (str "db") (str "x") (List.replicate 30001 'a') dbInit).2)).2 =
      setPointers (str "db")
        [entryKey (str "db") (str "x"), entryKey (str "db") (str "x_part0")]
        (applyWrites ((set (str "db") (str "x") (List.replicate 30001 'a') dbInit).2)
          (chunkWrites (entryKey (str "db") (str "x_part0"))
            (List.replicate 30001 'b'))) := by
    rw [set_eq_fresh h2 hm2]
    rfl
  have hf1 : ((set (str "db") (str "x_part0") (List.replicate 30001 'b')
      ((set (str "db") (str "x") (List.replicate 30001 'a') dbInit).2)).2).backend
      (entryKey (str "db") (str "x")) = some (natToStr 2) := by
    rw [e2, setPointers_backend, if_neg hdk1p]
    rw [chunkWrites_backend_other _ _ (by decide) ?hp12]
    case hp12 =>
      rw [hnB]
      intro i hi
      interval_cases i
      · decide
      · decide
    rw [e1, setPointers_backend, if_neg hdk1p]
    rw [chunkWrites_backend_base _ hbigA, hnA]
  have hc2 : ((set (str "db") (str "x_part0") (List.replicate 30001 'b')
      ((set (str "db") (str "x") (List.replicate 30001 'a') dbInit).2)).2).cached =
      some [entryKey (str "db") (str "x"), entryKey (str "db") (str "x_part0")] := by
    rw [e2]
    rfl
  have h3 := loadPointers_of_cached (str "db") hc2
  have e3 : clear (str "db") ((set (str "db") (str "x_part0") (List.replicate 30001 'b')
      ((set (str "db") (str "x") (List.replicate 30001 'a') dbInit).2)).2) =
      setPointers (str "db") []
        (clearStep (clearStep ((set (str "db") (str "x_part0") (List.replicate 30001 'b')
          ((set (str "db") (str "x") (List.replicate 30001 'a') dbInit).2)).2)
            (entryKey (str "db") (str "x")))
          (entryKey (str "db") (str "x_part0"))) := by
    rw [clear_eq h3]
    rfl
  rw [e3, setPointers_backend, if_neg hKp]
  rw [clearStep_backend_other _ _ _ (partKey_ne_base _ 0) ?h2parts]
  case h2parts =>
    have hT2 : (clearStep ((set (str "db") (str "x_part0") (List.replicate 30001 'b')
        ((set (str "db") (str "x") (List.replicate 30001 'a') dbInit).2)).2)
          (entryKey (str "db") (str "x"))).backend
        (entryKey (str "db") (str "x_part0")) = none := by
      have hpk : entryKey (str "db") (str "x_part0") =
          partKey (entryKey (str "db") (str "x")) 0 := by decide
      rw [hpk]
      exact clearStep_backend_part _ _ (by rw [nApparent_of_marker hf1]; decide)
    rw [nApparent_of_none hT2]
    intro i hi
    omega
  rw [clearStep_backend_other _ _ _ (by decide) ?h1parts]
  case h1parts =>
    rw [nApparent_of_marker hf1]
    intro i hi
    interval_cases i
    · decide
    · decide
  rw [e2, setPointers_backend, if_neg hKp]
  rw [chunkWrites_backend_part _ hbigB (by rw [hnB]; decide)]
  rfl

end ReplayCraft
